import Mathlib

set_option maxRecDepth 100000

/-
Shallow embedding of the regexrs repository (src/main.rs, src/fsm.rs,
src/parser/mod.rs, src/parser/combinators.rs).

Modelling conventions:
- Rust `&str` slices are `List Char` (Rust `char` and Lean `Char` are both
  Unicode scalar values).
- A parser is a function `List Char → PResult α`.  `PResult.err` is the
  `Err(())` failure of the Rust code; `PResult.ok v rest` is `Ok((v, rest))`;
  `PResult.div` marks an abnormal, non-returning execution of the Rust code:
  either an infinite repetition loop (an inner parser that succeeds without
  consuming) or a panic (`unwrap` on integer overflow, out-of-bounds `Vec`
  index, `unreachable!()`).  Both kinds propagate through every combinator
  exactly as `div` does here, since no Rust code catches panics.
- The `while let Ok(..)` loops of one_or_more / zero_or_more / sep_by are
  written as fuelled structural recursions primed with `input.length + 1`
  units of fuel.  A parser produced from this crate consumes a suffix of its
  input, so when every successful inner step consumes at least one character
  the fuel can never run out; fuel exhaustion happens exactly when some step
  succeeds without consuming, which is exactly when the Rust loop runs
  forever, and is reported as `div`.
- `usize` is modelled as an unbounded `Nat` plus an explicit overflow check
  where the Rust code performs one (`usize::from_str_radix(..).unwrap()`).
- The fixed-size per-character transition table `Transitions([State; 256])`
  is a `List State` of length 256; indexing it is partial (`Option`), with
  `none` modelling the Rust index-out-of-bounds panic.  Likewise
  `Regex::compile` and `Regex::matches` return `Option` values, `none`
  meaning the Rust code panics.
-/

namespace Regexrs

/-- Result of running a parser: `ok` and `err` mirror the `Ok((value, rest))`
and `Err(())` cases of `ParseResult`; `div` models a non-returning execution
(infinite loop or panic) of the Rust code. -/
inductive PResult (α : Type) : Type where
  | div : PResult α
  | err : PResult α
  | ok (value : α) (rest : List Char) : PResult α
deriving DecidableEq

/-- The `ParseResult`-returning function type of combinators.rs: a parser
takes an input slice to either a value with the remaining slice, an error,
or a non-returning execution. -/
def Parser (α : Type) : Type := List Char → PResult α

/-- combinators.rs `map`. -/
def pmap {α β : Type} (p : Parser α) (f : α → β) : Parser β := fun input =>
  match p input with
  | .ok v rest => .ok (f v) rest
  | .err => .err
  | .div => .div

/-- combinators.rs `pair`. -/
def pair {α β : Type} (p1 : Parser α) (p2 : Parser β) : Parser (α × β) := fun input =>
  match p1 input with
  | .ok v1 rest1 =>
    match p2 rest1 with
    | .ok v2 rest2 => .ok (v1, v2) rest2
    | .err => .err
    | .div => .div
  | .err => .err
  | .div => .div

/-- combinators.rs `left`. -/
def pleft {α β : Type} (p1 : Parser α) (p2 : Parser β) : Parser α :=
  pmap (pair p1 p2) (fun x => x.1)

/-- combinators.rs `right`. -/
def pright {α β : Type} (p1 : Parser α) (p2 : Parser β) : Parser β :=
  pmap (pair p1 p2) (fun x => x.2)

/-- combinators.rs `pred`. -/
def ppred {α : Type} (p : Parser α) (f : α → Bool) : Parser α := fun input =>
  match p input with
  | .ok v rest => if f v then .ok v rest else .err
  | .err => .err
  | .div => .div

/-- combinators.rs `Parser::or`: ordered choice, second parser tried on the
same original input only when the first fails with `Err`. -/
def por {α : Type} (p1 : Parser α) (p2 : Parser α) : Parser α := fun input =>
  match p1 input with
  | .err => p2 input
  | r => r

/-- combinators.rs `maybe`. -/
def maybe {α : Type} (p : Parser α) : Parser (Option α) := fun input =>
  match p input with
  | .ok v rest => .ok (some v) rest
  | .err => .ok none input
  | .div => .div

/-- combinators.rs `any_char`: consumes exactly one character. -/
def any_char : Parser Char := fun input =>
  match input with
  | [] => .err
  | c :: rest => .ok c rest

/-- combinators.rs `match_literal`.  The Rust code calls
`input.split_once(expected)` and succeeds iff the part before the first
occurrence is empty, which holds exactly when `expected` is a prefix of
`input`; the remainder is the input with that prefix removed. -/
def match_literal (expected : List Char) : Parser Unit := fun input =>
  if expected.isPrefixOf input then .ok () (input.drop expected.length) else .err

/-- The `while let Ok((next, rest)) = parser.parse(tmp_input)` loop shared by
`zero_or_more` and `one_or_more` (after the first item), written with fuel.
Fuel 0 (`div`) is reached exactly when the loop body succeeds without
consuming more often than the input is long, i.e. when the Rust loop never
terminates. -/
def repeat_loop {α : Type} (p : Parser α) : Nat → List Char → PResult (List α)
  | 0, _ => .div
  | fuel + 1, input =>
    match p input with
    | .err => .ok [] input
    | .div => .div
    | .ok v rest =>
      match repeat_loop p fuel rest with
      | .ok vs rest2 => .ok (v :: vs) rest2
      | r => r

/-- combinators.rs `zero_or_more`. -/
def zero_or_more {α : Type} (p : Parser α) : Parser (List α) := fun input =>
  repeat_loop p (input.length + 1) input

/-- combinators.rs `one_or_more`: first attempt mandatory, then the same
collection loop as `zero_or_more`. -/
def one_or_more {α : Type} (p : Parser α) : Parser (List α) := fun input =>
  match p input with
  | .err => .err
  | .div => .div
  | .ok v rest =>
    match repeat_loop p (rest.length + 1) rest with
    | .ok vs rest2 => .ok (v :: vs) rest2
    | r => r

/-- The Unicode `White_Space` code points: the exact set accepted by the
Rust method `char::is_whitespace`. -/
def rust_is_whitespace (c : Char) : Bool :=
  c.toNat = 0x09 || c.toNat = 0x0A || c.toNat = 0x0B || c.toNat = 0x0C ||
  c.toNat = 0x0D || c.toNat = 0x20 || c.toNat = 0x85 || c.toNat = 0xA0 ||
  c.toNat = 0x1680 || (0x2000 ≤ c.toNat && c.toNat ≤ 0x200A) ||
  c.toNat = 0x2028 || c.toNat = 0x2029 || c.toNat = 0x202F ||
  c.toNat = 0x205F || c.toNat = 0x3000

/-- combinators.rs `whitespace`. -/
def whitespace : Parser Unit :=
  pmap (zero_or_more (ppred any_char rust_is_whitespace)) (fun _ => ())

/-- combinators.rs `whitespace_surrounded_sep`. -/
def whitespace_surrounded_sep (sep : List Char) : Parser Unit :=
  pmap (pair (pair whitespace (match_literal sep)) whitespace) (fun _ => ())

/-- One iteration attempt of the `sep_by` loop:
`whitespace_surrounded_sep(sep).parse(tmp_input).and_then(|(_, s)| parser.parse(s))`. -/
def sep_step {α : Type} (p : Parser α) (sep : List Char) : Parser α := fun input =>
  match whitespace_surrounded_sep sep input with
  | .ok _ s => p s
  | .err => .err
  | .div => .div

/-- The collection loop of `sep_by` after the first item, with fuel. -/
def sep_loop {α : Type} (p : Parser α) (sep : List Char) :
    Nat → List Char → PResult (List α)
  | 0, _ => .div
  | fuel + 1, input =>
    match sep_step p sep input with
    | .err => .ok [] input
    | .div => .div
    | .ok v rest =>
      match sep_loop p sep fuel rest with
      | .ok vs rest2 => .ok (v :: vs) rest2
      | r => r

/-- combinators.rs `sep_by`. -/
def sep_by {α : Type} (p : Parser α) (sep : List Char) : Parser (List α) := fun input =>
  match p input with
  | .err => .err
  | .div => .div
  | .ok v rest =>
    match sep_loop p sep (rest.length + 1) rest with
    | .ok vs rest2 => .ok (v :: vs) rest2
    | r => r

/- ------------------------------------------------------------------ -/
/- parser/mod.rs: the regex grammar and its AST                        -/
/- ------------------------------------------------------------------ -/

/-- mod.rs `SPECIAL_CHARS`. -/
def SPECIAL_CHARS : List Char :=
  ['.', '^', '$', '*', '+', '?', Char.ofNat 123, Char.ofNat 125, '[', ']', '\\', '|', '(', ')']

/-- mod.rs `ESCAPES` (defined in the source, unused by it). -/
def ESCAPES : List Char := ['a', 'b', 'f', 'n', 'r', 't', 'v']

/-- mod.rs `SEQ_CHARS`. -/
def SEQ_CHARS : List Char := ['A', 'b', 'B', 'd', 'D', 's', 'S', 'w', 'W', 'Z']

/-- mod.rs `Quantifier`. -/
inductive Quantifier : Type where
  | ZeroOrMore | OneOrMore | Maybe
  | LazyZeroOrMore | LazyOneOrMore | LazyMaybe
  | Once
  | AtLeast (n : Nat)
  | Between (n m : Nat)
deriving DecidableEq

/-- mod.rs `Sign`. -/
inductive Sign : Type where
  | Inclusive | Exclusive
deriving DecidableEq

/-- mod.rs `Token`. -/
inductive Token : Type where
  | Range (lo hi : Char)
  | Literal (c : Char)
deriving DecidableEq

/-- mod.rs `CharacterClass`. -/
structure CharacterClass : Type where
  sign : Sign
  items : List Token
  quantifier : Quantifier
deriving DecidableEq

/-- mod.rs `SpecialSequence`. -/
inductive SpecialSequence : Type where
  | AnyCharacter | Start | WordBoundary | WithinWord | Digit | NotDigit
  | Whitespace | NotWhitespace | WordCharacter | NotWordCharacter | End
deriving DecidableEq

mutual
/-- mod.rs `Element`. -/
inductive Element : Type where
  | Class (c : CharacterClass)
  | Sequence (s : SpecialSequence) (q : Quantifier)
  | CaptureGroup (t : Term) (q : Quantifier)
/-- mod.rs `Term`. -/
inductive Term : Type where
  | mk (left_anchored : Bool) (right_anchored : Bool) (elements : List Element)
end

/-- Value of a digit string, as accumulated by `usize::from_str_radix(s, 10)`. -/
def val_of_digits (ds : List Char) : Nat :=
  ds.foldl (fun acc c => 10 * acc + (c.toNat - 48)) 0

/-- The digit parser `any_char.pred(|&c| c.is_digit(10))` used by `parse_int`. -/
def digit_char : Parser Char := ppred any_char (fun c => c.isDigit)

/-- mod.rs `parse_int`.  `usize::from_str_radix(..).unwrap()` panics when the
digit string overflows a 64-bit usize; the panic is modelled as `div`. -/
def parse_int : Parser Nat := fun input =>
  match one_or_more digit_char input with
  | .ok ds rest =>
    if val_of_digits ds < 2 ^ 64 then .ok (val_of_digits ds) rest else .div
  | .err => .err
  | .div => .div

/-- mod.rs `parse_quantifier`.  The final branch maps the integer list
through `if values.len() == 1 { AtLeast(values[0]) } else
{ Between(values[0], values[1]) }`; indexing an empty `values` would panic
(`div`), though `sep_by` never returns an empty list. -/
def parse_quantifier : Parser Quantifier := fun input =>
  por (por (por (por (por (por
    (pmap (match_literal ['+', '?']) (fun _ => Quantifier.LazyOneOrMore))
    (pmap (match_literal ['*', '?']) (fun _ => Quantifier.LazyZeroOrMore)))
    (pmap (match_literal ['?', '?']) (fun _ => Quantifier.LazyMaybe)))
    (pmap (match_literal ['+']) (fun _ => Quantifier.OneOrMore)))
    (pmap (match_literal ['*']) (fun _ => Quantifier.ZeroOrMore)))
    (pmap (match_literal ['?']) (fun _ => Quantifier.Maybe)))
    (fun inp =>
      match pleft (pright (match_literal [Char.ofNat 123]) (sep_by parse_int [',']))
          (match_literal [Char.ofNat 125]) inp with
      | .ok values rest =>
        match values with
        | [v] => .ok (Quantifier.AtLeast v) rest
        | v1 :: v2 :: _ => .ok (Quantifier.Between v1 v2) rest
        | [] => .div
      | .err => .err
      | .div => .div)
    input

/-- mod.rs `parse_sign`. -/
def parse_sign : Parser Sign :=
  pmap (maybe (match_literal ['^']))
    (fun s => match s with
      | some _ => Sign.Exclusive
      | none => Sign.Inclusive)

/-- mod.rs `not_backslash`. -/
def not_backslash : Parser Char := ppred any_char (fun c => c != '\\')

/-- mod.rs `single_item`. -/
def single_item : Parser Token :=
  pmap (ppred not_backslash (fun c => c != ']')) (fun c => Token.Literal c)

/-- mod.rs `character_range`: a `sep_by` over `-` that must yield exactly two
values. -/
def character_range : Parser Token := fun input =>
  match sep_by (ppred not_backslash (fun c => c != '-')) ['-'] input with
  | .ok values rest =>
    match values with
    | [lo, hi] => .ok (Token.Range lo hi) rest
    | _ => .err
  | .err => .err
  | .div => .div

/-- mod.rs `inside_character_class`. -/
def inside_character_class : Parser (Sign × List Token) :=
  pair parse_sign (one_or_more (por character_range single_item))

/-- mod.rs `character_class`. -/
def character_class : Parser Element :=
  pmap
    (pair
      (pright (match_literal ['['])
        (pleft inside_character_class (match_literal [']'])))
      (maybe parse_quantifier))
    (fun x =>
      Element.Class
        { sign := x.1.1, items := x.1.2, quantifier := x.2.getD Quantifier.Once })

/-- mod.rs `regular_character`. -/
def regular_character : Parser Char :=
  ppred any_char (fun c => !(SPECIAL_CHARS.contains c))

/-- mod.rs `escaped_character`. -/
def escaped_character : Parser Char :=
  pright (match_literal ['\\']) (ppred any_char (fun c => SPECIAL_CHARS.contains c))

/-- mod.rs `quantified_ordinary_character`. -/
def quantified_ordinary_character : Parser Element :=
  pmap (pair (por regular_character escaped_character) (maybe parse_quantifier))
    (fun x =>
      Element.Class
        { sign := Sign.Inclusive,
          items := [Token.Literal x.1],
          quantifier := x.2.getD Quantifier.Once })

/-- mod.rs `special_sequence`.  The `unreachable!()` arm of the Rust match is
modelled as `div`; the predicate on the escaped character makes it truly
unreachable. -/
def special_sequence : Parser Element := fun input =>
  match pair
      (por (pmap (match_literal ['.']) (fun _ => '.'))
        (pright (match_literal ['\\']) (ppred any_char (fun c => SEQ_CHARS.contains c))))
      (maybe parse_quantifier) input with
  | .ok x rest =>
    let q := x.2.getD Quantifier.Once
    match x.1 with
    | '.' => .ok (Element.Sequence SpecialSequence.AnyCharacter q) rest
    | 'A' => .ok (Element.Sequence SpecialSequence.Start q) rest
    | 'b' => .ok (Element.Sequence SpecialSequence.WordBoundary q) rest
    | 'B' => .ok (Element.Sequence SpecialSequence.WithinWord q) rest
    | 'd' => .ok (Element.Sequence SpecialSequence.Digit q) rest
    | 'D' => .ok (Element.Sequence SpecialSequence.NotDigit q) rest
    | 's' => .ok (Element.Sequence SpecialSequence.Whitespace q) rest
    | 'S' => .ok (Element.Sequence SpecialSequence.NotWhitespace q) rest
    | 'w' => .ok (Element.Sequence SpecialSequence.WordCharacter q) rest
    | 'W' => .ok (Element.Sequence SpecialSequence.NotWordCharacter q) rest
    | 'Z' => .ok (Element.Sequence SpecialSequence.End q) rest
    | _ => .div
  | .err => .err
  | .div => .div

/-- mod.rs `match_group`, abstracted over the term parser so that the
`regex_term` / `match_group` recursion becomes a recursion on fuel. -/
def match_group_with (term_p : Parser Term) : Parser Element :=
  pmap
    (pair (pleft (pright (match_literal ['(']) term_p) (match_literal [')']))
      (maybe parse_quantifier))
    (fun x => Element.CaptureGroup x.1 (x.2.getD Quantifier.Once))

/-- mod.rs `regex_term`, with fuel bounding the nesting depth of capture
groups.  Each recursive descent into `match_group` consumes at least the `(`
character, so `input.length + 1` units of fuel can never be exhausted on the
inputs the Rust code terminates on. -/
def regex_term_fuel : Nat → Parser Term
  | 0 => fun _ => .div
  | fuel + 1 =>
    pmap
      (pair (maybe (match_literal ['^']))
        (pair
          (one_or_more
            (por (por (por special_sequence character_class)
                quantified_ordinary_character)
              (match_group_with (regex_term_fuel fuel))))
          (maybe (match_literal ['$']))))
      (fun x => Term.mk x.1.isSome x.2.2.isSome x.2.1)

/-- mod.rs `regex_term` at its canonical fuel. -/
def regex_term : Parser Term := fun input => regex_term_fuel (input.length + 1) input

/-- mod.rs `parse_regex`: a `sep_by` over `|` that must consume the whole
input. -/
def parse_regex : Parser (List Term) := fun input =>
  match sep_by (regex_term_fuel (input.length + 1)) ['|'] input with
  | .ok value rest =>
    match rest with
    | [] => .ok value rest
    | _ :: _ => .err
  | .err => .err
  | .div => .div

/- ------------------------------------------------------------------ -/
/- fsm.rs and main.rs                                                  -/
/- ------------------------------------------------------------------ -/

/-- fsm.rs `State`. -/
inductive State : Type where
  | Failed
  | Intermediate (idx : Nat)
  | Success
deriving DecidableEq

/-- fsm.rs `Transitions`, a 256-entry table. -/
structure Transitions : Type where
  table : List State
deriving DecidableEq

/-- fsm.rs `Transitions::default`. -/
def Transitions.default : Transitions := ⟨List.replicate 256 State.Failed⟩

/-- Reading `Transitions[idx]`; `none` models the index-out-of-bounds panic
for `idx ≥ 256`. -/
def Transitions.get (t : Transitions) (idx : Nat) : Option State :=
  t.table.get? idx

/-- Writing `Transitions[idx] = s`; `none` models the index-out-of-bounds
panic for `idx ≥ 256`. -/
def Transitions.set (t : Transitions) (idx : Nat) (s : State) : Option Transitions :=
  if idx < t.table.length then some ⟨t.table.set idx s⟩ else none

/-- fsm.rs `FSM`. -/
structure FSM : Type where
  graph : List Transitions
deriving DecidableEq

/-- fsm.rs `FSM::new`. -/
def FSM.new : FSM := ⟨[]⟩

/-- fsm.rs `FSM::final_state`. -/
def FSM.final_state (fsm : FSM) : Nat := fsm.graph.length

/-- fsm.rs `FSM::push`. -/
def FSM.push (fsm : FSM) (ts : Transitions) : FSM := ⟨fsm.graph ++ [ts]⟩

/-- fsm.rs `FSM::next`.  `none` models the panics from `self.graph[idx]`
(when `idx` exceeds the graph) and from the 256-entry table lookup
`[char as usize]` (when the character has code point 256 or more). -/
def FSM.next (fsm : FSM) (st : State) (c : Char) : Option State :=
  match st with
  | .Failed => some .Failed
  | .Success => some .Success
  | .Intermediate idx =>
    if idx = fsm.final_state then some .Success
    else
      match fsm.graph.get? idx with
      | none => none
      | some ts =>
        match ts.get c.toNat with
        | none => none
        | some nxt =>
          match nxt with
          | .Intermediate n =>
            if n = fsm.final_state then some .Success else some (State.Intermediate n)
          | other => some other

/-- main.rs `char_to_idx`. -/
def char_to_idx (c : Char) : Nat :=
  if c = '$' then 10 else c.toNat

/-- main.rs `Regex`. -/
structure Regex : Type where
  fsm : FSM
deriving DecidableEq

/-- The `for c in regex.as_ref().chars()` loop of `Regex::compile`: one
transition row per pattern character, each sending `char_to_idx c` to the
next state index. -/
def build_fsm : FSM → List Char → Option FSM
  | fsm, [] => some fsm
  | fsm, c :: cs =>
    match Transitions.set Transitions.default (char_to_idx c)
        (State.Intermediate (fsm.final_state + 1)) with
    | none => none
    | some ts => build_fsm (fsm.push ts) cs

/-- main.rs `Regex::compile`.  The parse result `ast` is computed and then
only debug-printed, never inspected: compilation proceeds from the raw
pattern characters regardless of the parse outcome.  `none` models a panic,
either inside `parse_regex` (integer overflow) or from writing a table index
of 256 or more. -/
def Regex.compile (regex : List Char) : Option Regex :=
  match parse_regex regex with
  | .div => none
  | _ =>
    match build_fsm FSM.new regex with
    | none => none
    | some fsm => some ⟨fsm⟩

/-- The character loop of `Regex::matches` plus the trailing end-of-line
step: after the characters are exhausted one more transition on `'\n'` is
taken and the result compared against `Success`. -/
def matches_loop (fsm : FSM) : State → List Char → Option Bool
  | st, [] =>
    match fsm.next st '\n' with
    | none => none
    | some st2 => some (decide (st2 = State.Success))
  | st, c :: cs =>
    match fsm.next st c with
    | none => none
    | some st2 =>
      if st2 = State.Failed then some false
      else if st2 = State.Success then some true
      else matches_loop fsm st2 cs

/-- main.rs `Regex::matches`. -/
def Regex.matches (r : Regex) (s : List Char) : Option Bool :=
  matches_loop r.fsm (State.Intermediate 0) s

/-- `matches` with the receiver threaded through explicitly, as a caller
sees a `&self` method: the call returns its result together with the regex
it leaves behind. -/
def Regex.matches_call (r : Regex) (s : List Char) : Option Bool × Regex :=
  (r.matches s, r)

/-- A sequence of `matches` calls against whatever regex the previous call
left behind, collecting every result. -/
def run_calls : Regex → List (List Char) → List (Option Bool) × Regex
  | r, [] => ([], r)
  | r, s :: ss =>
    let step := r.matches_call s
    let rest := run_calls step.2 ss
    (step.1 :: rest.1, rest.2)

/-- Boolean list-prefix test used to state the acceptance characterisation
of the compiled chain automaton. -/
def is_pre : List Nat → List Nat → Bool
  | [], _ => true
  | _ :: _, [] => false
  | a :: as_, b :: bs => a == b && is_pre as_ bs

/-- The transition row `Regex::compile` writes for one pattern character: a
default row with the single entry `idx ↦ Intermediate nxt`. -/
def mk_ts (idx nxt : Nat) : Transitions :=
  ⟨(List.replicate 256 State.Failed).set idx (State.Intermediate nxt)⟩

/-- The rows `Regex::compile` appends for the pattern characters `cs`, when
the graph already holds `n` rows. -/
def chain : Nat → List Char → List Transitions
  | _, [] => []
  | n, c :: cs => mk_ts (char_to_idx c) (n + 1) :: chain (n + 1) cs

/- ------------------------------------------------------------------ -/
/- Theorems                                                            -/
/- ------------------------------------------------------------------ -/

/-- C1: `parse_regex` rejects the pattern `[a-` (the §4.2 grammar cannot
consume it), yet `Regex::compile` still returns a compiled pattern: the
parse result is computed, debug-printed and discarded, so no ParseError is
ever surfaced to the caller. -/
theorem C1_compile_ignores_parse_error :
    parse_regex ['[', 'a', '-'] = PResult.err ∧
      (Regex.compile ['[', 'a', '-']).isSome = true :=
  ⟨rfl, rfl⟩

/-- C2: `matches` is not total over Unicode probe text.  On the compiled
pattern `a` and the one-character probe U+0100 (the first code point not
below 256), the lookup `[char as usize]` indexes past the 256-entry
transition table and the Rust code panics (modelled by `none`). -/
theorem C2_matches_panics_beyond_table :
    ((Regex.compile ['a']).bind fun r => r.matches [Char.ofNat 256]) = none :=
  rfl

/-- C3 counterexample: the pattern `a` compiled by this code accepts the
probe `ab` — acceptance is decided as soon as the accepting state is
reached, after the proper prefix `a`, not at the position after the final
symbol. -/
theorem C3_cex_proper_prefix_accepted :
    ((Regex.compile ['a']).bind fun r => r.matches ['a', 'b']) = some true ∧
      ((Regex.compile ['a']).bind fun r => r.matches ['a']) = some true :=
  ⟨rfl, rfl⟩

/-- C4: the pattern `[^0-9]` compiles (the parse result is ignored), but the
automaton is built from the raw pattern characters, so a probe has to start
with a literal `[` to get anywhere: `matches "5"` is false as claimed, while
`matches "x"` is false as well, contradicting the claimed `true`. -/
theorem C4_negated_class_eval :
    ((Regex.compile ['[', '^', '0', '-', '9', ']']).bind fun r => r.matches ['5'])
        = some false ∧
      ((Regex.compile ['[', '^', '0', '-', '9', ']']).bind fun r => r.matches ['x'])
        = some false :=
  ⟨rfl, rfl⟩

/-- C5: running any sequence of `matches` calls against a compiled pattern,
each call operating on whatever regex the previous call left behind, yields
exactly the pointwise results of the pure `matches` function and hands the
regex back unchanged: calls are deterministic and cannot influence one
another. -/
theorem C5_no_cross_call_state (r : Regex) (ss : List (List Char)) :
    run_calls r ss = (ss.map fun s => r.matches s, r) := by
  induction ss with
  | nil => rfl
  | cons s ss ih => simp [run_calls, Regex.matches_call, ih]

/-- C6 counterexample: a brace quantifier holding three integers is not
rejected — `{1,2,3}` parses to `Between 1 2` (the third integer is silently
dropped) and the whole pattern `a{1,2,3}` is accepted by `parse_regex`. -/
theorem C6_cex_three_integer_brace_accepted :
    parse_quantifier
        (Char.ofNat 123 :: '1' :: ',' :: '2' :: ',' :: '3' :: [Char.ofNat 125])
        = PResult.ok (Quantifier.Between 1 2) [] ∧
      parse_regex
          ('a' :: Char.ofNat 123 :: '1' :: ',' :: '2' :: ',' :: '3' :: [Char.ofNat 125])
        = PResult.ok
            [Term.mk false false
              [Element.Class
                ⟨Sign.Inclusive, [Token.Literal 'a'], Quantifier.Between 1 2⟩]] [] :=
  ⟨rfl, rfl⟩

/-- C7 counterexample: `sep_by` does not require the items to be separated
by exactly the literal separator — whitespace around the separator is
consumed by `whitespace_surrounded_sep`, so `parse_int` items split on `","`
parse `"3 , 5"` in full instead of stopping after `3`. -/
theorem C7_cex_whitespace_around_separator :
    sep_by parse_int [','] ['3', ' ', ',', ' ', '5'] = PResult.ok [3, 5] [] :=
  rfl

/-- The compile loop only succeeds when every pattern character maps to a
code that fits the 256-entry table, and then appends exactly the `chain`
rows. -/
theorem build_fsm_chain :
    ∀ (cs : List Char) (g : List Transitions) (fsm : FSM),
      build_fsm ⟨g⟩ cs = some fsm →
      (∀ c ∈ cs, char_to_idx c < 256) ∧ fsm = ⟨g ++ chain g.length cs⟩ := by
  intro cs
  induction cs with
  | nil =>
    intro g fsm h
    simp only [build_fsm, Option.some.injEq] at h
    subst h
    simp [chain]
  | cons c cs ih =>
    intro g fsm h
    by_cases hc : char_to_idx c < 256
    · simp only [build_fsm, Transitions.set, Transitions.default, FSM.push,
        FSM.final_state, List.length_replicate, hc, if_pos] at h
      obtain ⟨hcs, hf⟩ := ih (g ++ [mk_ts (char_to_idx c) (g.length + 1)]) fsm (by
        simpa [mk_ts] using h)
      refine ⟨?_, ?_⟩
      · intro c' hmem
        rcases List.mem_cons.mp hmem with rfl | hmem
        · exact hc
        · exact hcs c' hmem
      · rw [hf]
        simp [chain, List.append_assoc]
    · simp [build_fsm, Transitions.set, Transitions.default, hc] at h

/-- A successful `Regex::compile` produces exactly the chain automaton of
the raw pattern characters, and certifies that every mapped character code
is below 256. -/
theorem compile_chain (p : List Char) (r : Regex) (h : Regex.compile p = some r) :
    (∀ c ∈ p, char_to_idx c < 256) ∧ r = ⟨⟨chain 0 p⟩⟩ := by
  unfold Regex.compile at h
  cases hpr : parse_regex p <;> rw [hpr] at h
  · exact absurd h (by simp)
  all_goals
    cases hb : build_fsm FSM.new p <;> rw [hb] at h
  · exact absurd h (by simp)
  case err.some fsm =>
    obtain ⟨hcs, hf⟩ := build_fsm_chain p [] fsm hb
    simp only [Option.some.injEq] at h
    subst h
    refine ⟨hcs, ?_⟩
    rw [hf]
    simp
  · exact absurd h (by simp)
  case ok.some fsm =>
    obtain ⟨hcs, hf⟩ := build_fsm_chain p [] fsm hb
    simp only [Option.some.injEq] at h
    subst h
    refine ⟨hcs, ?_⟩
    rw [hf]
    simp

/-- The chain has one row per pattern character. -/
theorem chain_length : ∀ (cs : List Char) (n : Nat), (chain n cs).length = cs.length := by
  intro cs
  induction cs with
  | nil => intro n; rfl
  | cons c cs ih => intro n; simp [chain, ih]

/-- Row `i` of the chain maps the `i`-th pattern character to state `n+i+1`. -/
theorem chain_get :
    ∀ (cs : List Char) (n i : Nat) (h : i < cs.length),
      (chain n cs).get? i = some (mk_ts (char_to_idx cs[i]) (n + i + 1)) := by
  intro cs
  induction cs with
  | nil => intro n i h; exact absurd h (by simp)
  | cons c cs ih =>
    intro n i h
    cases i with
    | zero => rfl
    | succ j =>
      have hj : j < cs.length := by simpa using h
      have : (chain n (c :: cs)).get? (j + 1) = (chain (n + 1) cs).get? j := rfl
      rw [this, ih (n + 1) j hj]
      have harith : n + 1 + j + 1 = n + (j + 1) + 1 := by omega
      rw [harith]
      rfl

/-- Looking up a character code in a single-entry row. -/
theorem mk_ts_get (idx nxt k : Nat) (hidx : idx < 256) :
    Transitions.get (mk_ts idx nxt) k =
      if k < 256 then
        some (if k = idx then State.Intermediate nxt else State.Failed)
      else none := by
  unfold Transitions.get mk_ts
  rw [List.get?_eq_getElem?, List.getElem?_set]
  by_cases he : idx = k
  · subst he
    rw [if_pos rfl, List.length_replicate]
    by_cases hk : idx < 256
    · rw [if_pos hk, if_pos hk, if_pos rfl]
    · exact absurd hidx hk
  · have he' : ¬(k = idx) := fun hh => he hh.symm
    rw [if_neg he, List.getElem?_replicate]
    by_cases hk : k < 256
    · rw [if_pos hk, if_pos hk, if_neg he']
    · rw [if_neg hk, if_neg hk]

/-- Stepping the chain automaton from a live intermediate state: a matching
character code below 256 advances (reaching `Success` on the last row), a
mismatching code below 256 dies, and a code of 256 or more panics. -/
theorem next_chain (p : List Char) (hp : ∀ c ∈ p, char_to_idx c < 256)
    (i : Nat) (hlt : i < p.length) (c : Char) :
    FSM.next ⟨chain 0 p⟩ (State.Intermediate i) c =
      if c.toNat < 256 then
        some
          (if c.toNat = char_to_idx p[i] then
            (if i + 1 = p.length then State.Success else State.Intermediate (i + 1))
          else State.Failed)
      else none := by
  have hfin : FSM.final_state ⟨chain 0 p⟩ = p.length := by
    simp [FSM.final_state, chain_length]
  have hne : i ≠ p.length := Nat.ne_of_lt hlt
  have hd : char_to_idx p[i] < 256 := hp _ (List.getElem_mem hlt)
  unfold FSM.next
  rw [hfin]
  simp only [hne, if_false]
  rw [chain_get p 0 i hlt, Nat.zero_add]
  simp only [mk_ts_get _ _ _ hd]
  by_cases hc : c.toNat < 256
  · simp only [hc, if_pos]
    by_cases heq : c.toNat = char_to_idx p[i]
    · simp only [heq, if_pos]
      by_cases h2 : i + 1 = p.length <;> simp [h2]
    · simp [heq]
  · simp [hc]

/-- Stepping from the final intermediate state always succeeds. -/
theorem next_chain_final (p : List Char) (c : Char) :
    FSM.next ⟨chain 0 p⟩ (State.Intermediate p.length) c = some State.Success := by
  have hfin : FSM.final_state ⟨chain 0 p⟩ = p.length := by
    simp [FSM.final_state, chain_length]
  unfold FSM.next
  rw [hfin]
  simp

/-- The prefix test against a non-empty left list and an empty right list
fails. -/
theorem is_pre_cons_nil (a : Nat) (as_ : List Nat) : is_pre (a :: as_) [] = false := rfl

/-- Acceptance of the matcher loop started at live state `i`: it returns
`some true` exactly when the mapped codes of the remaining pattern are a
prefix of the probe codes extended by the terminal newline code 10. -/
theorem matches_loop_chain (p : List Char) (hp : ∀ c ∈ p, char_to_idx c < 256) :
    ∀ (s : List Char) (i : Nat), i ≤ p.length →
      (matches_loop ⟨chain 0 p⟩ (State.Intermediate i) s = some true ↔
        is_pre ((p.drop i).map char_to_idx) (s.map Char.toNat ++ [10]) = true) := by
  intro s
  induction s with
  | nil =>
    intro i hi
    rcases Nat.lt_or_ge i p.length with hlt | hge
    · have hdrop : p.drop i = p[i] :: p.drop (i + 1) := List.drop_eq_getElem_cons hlt
      have h10 : ('\n').toNat = 10 := rfl
      simp only [matches_loop]
      rw [next_chain p hp i hlt '\n', h10]
      rw [if_pos (show (10:Nat) < 256 by omega)]
      rw [hdrop]
      by_cases heq : (10 : Nat) = char_to_idx p[i]
      · rw [if_pos heq]
        by_cases hfin : i + 1 = p.length
        · have hdrop2 : p.drop (i + 1) = [] := by rw [hfin, List.drop_length]
          rw [if_pos hfin, hdrop2]
          simp [is_pre, ← heq]
        · have hlt2 : i + 1 < p.length := by omega
          have hdrop2 : p.drop (i + 1) = p[i+1] :: p.drop (i + 2) :=
            List.drop_eq_getElem_cons hlt2
          rw [if_neg hfin, hdrop2]
          simp [is_pre]
      · rw [if_neg heq]
        have hne10 : (char_to_idx p[i] == 10) = false := by
          simp only [beq_eq_false_iff_ne, ne_eq]
          exact fun hh => heq hh.symm
        simp [is_pre, hne10]
    · have hieq : i = p.length := Nat.le_antisymm hi hge
      subst hieq
      simp only [matches_loop]
      rw [next_chain_final p '\n']
      simp [List.drop_length, is_pre]
  | cons c cs ih =>
    intro i hi
    rcases Nat.lt_or_ge i p.length with hlt | hge
    · have hdrop : p.drop i = p[i] :: p.drop (i + 1) := List.drop_eq_getElem_cons hlt
      simp only [matches_loop]
      rw [next_chain p hp i hlt c, hdrop]
      by_cases hc : c.toNat < 256
      · rw [if_pos hc]
        by_cases heq : c.toNat = char_to_idx p[i]
        · rw [if_pos heq]
          have hbeq : (char_to_idx p[i] == c.toNat) = true := by simp [heq]
          by_cases hfin : i + 1 = p.length
          · have hdrop2 : p.drop (i + 1) = [] := by rw [hfin, List.drop_length]
            rw [if_pos hfin, hdrop2]
            simp [is_pre, hbeq]
          · rw [if_neg hfin]
            have hstep := ih (i + 1) hlt
            simp only [List.map_cons, List.cons_append, is_pre, hbeq, Bool.true_and]
            rw [if_neg (show ¬(State.Intermediate (i+1) = State.Failed) by simp),
                if_neg (show ¬(State.Intermediate (i+1) = State.Success) by simp)]
            exact hstep
        · rw [if_neg heq]
          have hbeq : (char_to_idx p[i] == c.toNat) = false := by
            simp only [beq_eq_false_iff_ne, ne_eq]
            exact fun hh => heq hh.symm
          simp [is_pre, hbeq]
      · rw [if_neg hc]
        have hbeq : (char_to_idx p[i] == c.toNat) = false := by
          simp only [beq_eq_false_iff_ne, ne_eq]
          intro hh
          have := hp p[i] (List.getElem_mem hlt)
          omega
        simp [is_pre, hbeq]
    · have hieq : i = p.length := Nat.le_antisymm hi hge
      subst hieq
      simp only [matches_loop]
      rw [next_chain_final p c]
      simp [List.drop_length, is_pre]

/-- C3 (amended): under this code a successfully compiled pattern is matched
with prefix semantics, not whole-string semantics — `matches` answers `true`
exactly when the mapped character codes of the pattern (`$` mapped to the
newline code 10) form a prefix of the character codes of the probe extended
by a terminal newline: acceptance can be decided strictly before the final
symbol, so a described proper prefix of the probe suffices. -/
theorem C3_matches_prefix_characterization (p s : List Char)
    (h : (Regex.compile p).isSome = true) :
    (((Regex.compile p).bind fun r => r.matches s) = some true ↔
      is_pre (p.map char_to_idx) (s.map Char.toNat ++ [10]) = true) := by
  obtain ⟨r, hr⟩ := Option.isSome_iff_exists.mp h
  obtain ⟨hcodes, hre⟩ := compile_chain p r hr
  rw [hr]
  subst hre
  simp only [Option.some_bind]
  have := matches_loop_chain p hcodes s 0 (Nat.zero_le _)
  simpa [Regex.matches, List.drop_zero] using this

/-- Witness for C3: the characterisation applied to the compiled pattern
`ab` and the probe `abc`, whose accepted status follows from the prefix
test. -/
theorem C3_matches_prefix_characterization_witness :
    ((Regex.compile ['a', 'b']).bind fun r => r.matches ['a', 'b', 'c']) = some true :=
  (C3_matches_prefix_characterization ['a', 'b'] ['a', 'b', 'c'] (by rfl)).mpr (by rfl)

/-- C9: compiling the empty pattern succeeds and the resulting recognizer
accepts every probe string, the empty one included: the start state index 0
already equals `final_state`, so the very first transition returns
`Success`. -/
theorem C9_empty_pattern_accepts_everything :
    (Regex.compile []).isSome = true ∧
      ∀ s : List Char, ((Regex.compile []).bind fun r => r.matches s) = some true :=
  ⟨rfl, fun s => by cases s <;> rfl⟩

/-- Two sufficient fuel values give the repetition loop the same result when
every successful attempt of the inner parser consumes input. -/
theorem repeat_loop_congr {α : Type} (p : Parser α)
    (hcons : ∀ s v r, p s = PResult.ok v r → r.length < s.length) :
    ∀ (f1 f2 : Nat) (s : List Char), s.length < f1 → s.length < f2 →
      repeat_loop p f1 s = repeat_loop p f2 s := by
  intro f1
  induction f1 with
  | zero => intro f2 s h1 _; exact absurd h1 (Nat.not_lt_zero _)
  | succ g1 ih =>
    intro f2 s h1 h2
    cases f2 with
    | zero => exact absurd h2 (Nat.not_lt_zero _)
    | succ g2 =>
      cases hp : p s with
      | err => simp only [repeat_loop, hp]
      | div => simp only [repeat_loop, hp]
      | ok v r =>
        have hr := hcons s v r hp
        simp only [repeat_loop, hp]
        rw [ih g2 r (by omega) (by omega)]

/-- With a consuming, never-panicking inner parser and sufficient fuel, the
repetition loop completes with a success whose remainder refutes one more
attempt (greediness). -/
theorem repeat_loop_ok {α : Type} (p : Parser α)
    (hdiv : ∀ s, p s ≠ PResult.div)
    (hcons : ∀ s v r, p s = PResult.ok v r → r.length < s.length) :
    ∀ (f : Nat) (s : List Char), s.length < f →
      ∃ vs rest, repeat_loop p f s = PResult.ok vs rest ∧
        p rest = PResult.err ∧ rest.length ≤ s.length := by
  intro f
  induction f with
  | zero => intro s h; exact absurd h (Nat.not_lt_zero _)
  | succ g ih =>
    intro s h
    cases hp : p s with
    | err => exact ⟨[], s, by simp [repeat_loop, hp], hp, le_refl _⟩
    | div => exact absurd hp (hdiv s)
    | ok v r =>
      have hr := hcons s v r hp
      obtain ⟨vs, rest, hloop, herr, hle⟩ := ih r (by omega)
      exact ⟨v :: vs, rest, by simp [repeat_loop, hp, hloop], herr, by omega⟩

/-- An inner parser that succeeds without consuming starves the repetition
loop of fuel no matter how much it is given: the Rust loop never
terminates. -/
theorem repeat_loop_nonconsuming_div {α : Type} (p : Parser α) (s : List Char) (v : α)
    (h : p s = PResult.ok v s) : ∀ f, repeat_loop p f s = PResult.div := by
  intro f
  induction f with
  | zero => rfl
  | succ g ih => simp [repeat_loop, h, ih]

/-- The collection loop of `sep_by` is the repetition loop of its combined
separator-then-item step. -/
theorem sep_loop_eq_repeat {α : Type} (p : Parser α) (sep : List Char) :
    ∀ (f : Nat) (s : List Char), sep_loop p sep f s = repeat_loop (sep_step p sep) f s := by
  intro f
  induction f with
  | zero => intro s; rfl
  | succ g ih =>
    intro s
    cases hp : sep_step p sep s with
    | err => simp only [sep_loop, repeat_loop, hp]
    | div => simp only [sep_loop, repeat_loop, hp]
    | ok v r =>
      simp only [sep_loop, repeat_loop, hp]
      rw [ih r]

/-- The single-whitespace-character parser never panics. -/
theorem ws_char_no_div : ∀ s, ppred any_char rust_is_whitespace s ≠ PResult.div := by
  intro s
  cases s with
  | nil => simp [ppred, any_char]
  | cons c t =>
    simp only [ppred, any_char]
    split <;> simp

/-- The single-whitespace-character parser consumes on success. -/
theorem ws_char_consumes :
    ∀ s v r, ppred any_char rust_is_whitespace s = PResult.ok v r → r.length < s.length := by
  intro s v r h
  cases s with
  | nil => exact absurd h (by simp [ppred, any_char])
  | cons c t =>
    simp only [ppred, any_char] at h
    by_cases hw : rust_is_whitespace c
    · rw [if_pos hw] at h
      cases h
      simp
    · rw [if_neg hw] at h
      cases h

/-- `whitespace` always succeeds, consuming a (possibly empty) prefix. -/
theorem whitespace_ok : ∀ s, ∃ r, whitespace s = PResult.ok () r ∧ r.length ≤ s.length := by
  intro s
  obtain ⟨vs, rest, hl, _, hle⟩ :=
    repeat_loop_ok _ ws_char_no_div ws_char_consumes (s.length + 1) s (by omega)
  exact ⟨rest, by simp [whitespace, pmap, zero_or_more, hl], hle⟩

/-- `match_literal` never panics and never lengthens the input. -/
theorem match_literal_cases (e s : List Char) :
    match_literal e s = PResult.err ∨
      ∃ r, match_literal e s = PResult.ok () r ∧ r.length ≤ s.length := by
  by_cases hp : e.isPrefixOf s
  · right
    exact ⟨s.drop e.length, by simp [match_literal, hp], by simp⟩
  · left
    simp [match_literal, hp]

/-- `whitespace_surrounded_sep` never panics, and on success it consumes a
(possibly empty) prefix. -/
theorem wsss_cases (sep s : List Char) :
    whitespace_surrounded_sep sep s = PResult.err ∨
      ∃ r, whitespace_surrounded_sep sep s = PResult.ok () r ∧ r.length ≤ s.length := by
  obtain ⟨r1, h1, hl1⟩ := whitespace_ok s
  rcases match_literal_cases sep r1 with h2 | ⟨r2, h2, hl2⟩
  · left
    simp [whitespace_surrounded_sep, pmap, pair, h1, h2]
  · obtain ⟨r3, h3, hl3⟩ := whitespace_ok r2
    right
    exact ⟨r3, by simp [whitespace_surrounded_sep, pmap, pair, h1, h2, h3], by omega⟩

/-- The separator-then-item step never panics when the item parser does
not. -/
theorem sep_step_no_div {α : Type} (p : Parser α) (sep : List Char)
    (hdiv : ∀ s, p s ≠ PResult.div) : ∀ s, sep_step p sep s ≠ PResult.div := by
  intro s
  rcases wsss_cases sep s with h | ⟨r, h, _⟩
  · simp [sep_step, h]
  · simp [sep_step, h]
    exact hdiv r

/-- The separator-then-item step consumes on success when the item parser
does. -/
theorem sep_step_consumes {α : Type} (p : Parser α) (sep : List Char)
    (hcons : ∀ s v r, p s = PResult.ok v r → r.length < s.length) :
    ∀ s v r, sep_step p sep s = PResult.ok v r → r.length < s.length := by
  intro s v r h
  rcases wsss_cases sep s with hw | ⟨r1, hw, hl⟩
  · simp [sep_step, hw] at h
  · simp only [sep_step, hw] at h
    have := hcons r1 v r h
    omega

/-- The digit parser of `parse_int` never panics. -/
theorem digit_char_no_div : ∀ s, digit_char s ≠ PResult.div := by
  intro s
  cases s with
  | nil => simp [digit_char, ppred, any_char]
  | cons c t =>
    simp only [digit_char, ppred, any_char]
    split <;> simp

/-- The digit parser of `parse_int` consumes on success. -/
theorem digit_char_consumes :
    ∀ s v r, digit_char s = PResult.ok v r → r.length < s.length := by
  intro s v r h
  cases s with
  | nil => exact absurd h (by simp [digit_char, ppred, any_char])
  | cons c t =>
    simp only [digit_char, ppred, any_char] at h
    by_cases hd : c.isDigit
    · rw [if_pos hd] at h
      cases h
      simp
    · rw [if_neg hd] at h
      cases h

/-- C8: with an inner parser that never panics and consumes on every
success, `zero_or_more` always succeeds and is greedy (one more attempt at
the returned remainder fails), and `one_or_more` fails exactly when the
first attempt fails and otherwise returns the very same result as
`zero_or_more`. -/
theorem C8_repetition_spec {α : Type} (p : Parser α) (input : List Char)
    (hdiv : ∀ s, p s ≠ PResult.div)
    (hcons : ∀ s v r, p s = PResult.ok v r → r.length < s.length) :
    (∃ vs rest, zero_or_more p input = PResult.ok vs rest ∧ p rest = PResult.err) ∧
      (p input = PResult.err → one_or_more p input = PResult.err) ∧
      (p input ≠ PResult.err → one_or_more p input = zero_or_more p input) := by
  refine ⟨?_, ?_, ?_⟩
  · obtain ⟨vs, rest, hl, he, _⟩ :=
      repeat_loop_ok p hdiv hcons (input.length + 1) input (by omega)
    exact ⟨vs, rest, by simpa [zero_or_more] using hl, he⟩
  · intro he
    simp [one_or_more, he]
  · intro hne
    cases hp : p input with
    | err => exact absurd hp hne
    | div => exact absurd hp (hdiv input)
    | ok v r =>
      have hr := hcons input v r hp
      obtain ⟨vs, rest, hl, he2, _⟩ := repeat_loop_ok p hdiv hcons (r.length + 1) r (by omega)
      have hl2 : repeat_loop p input.length r = PResult.ok vs rest := by
        rw [← repeat_loop_congr p hcons (r.length + 1) input.length r (by omega) (by omega)]
        exact hl
      have hz : zero_or_more p input = PResult.ok (v :: vs) rest := by
        simp [zero_or_more, repeat_loop, hp, hl2]
      have ho : one_or_more p input = PResult.ok (v :: vs) rest := by
        simp [one_or_more, hp, hl]
      rw [ho, hz]

/-- C7 (amended): `sep_by` fails exactly when the item parser fails at the
start of the input; otherwise it collects one or more items separated by the
separator text, each separator optionally surrounded by whitespace, and it
stops at the first point where the whitespace-surrounded separator followed
by an item does not parse, returning the input remaining there. -/
theorem C7_sep_by_spec {α : Type} (p : Parser α) (sep input : List Char)
    (hdiv : ∀ s, p s ≠ PResult.div)
    (hcons : ∀ s v r, p s = PResult.ok v r → r.length < s.length) :
    (sep_by p sep input = PResult.err ↔ p input = PResult.err) ∧
      (∀ v r, p input = PResult.ok v r →
        ∃ vs rest, sep_by p sep input = PResult.ok (v :: vs) rest) ∧
      (∀ vs rest, sep_by p sep input = PResult.ok vs rest →
        vs ≠ [] ∧ sep_step p sep rest = PResult.err) := by
  have hstep_nd := sep_step_no_div p sep hdiv
  have hstep_c := sep_step_consumes p sep hcons
  refine ⟨⟨?_, ?_⟩, ?_, ?_⟩
  · intro h
    cases hp : p input with
    | err => rfl
    | div => exact absurd hp (hdiv input)
    | ok v r =>
      obtain ⟨vs, rest, hl, _, _⟩ :=
        repeat_loop_ok _ hstep_nd hstep_c (r.length + 1) r (by omega)
      simp [sep_by, hp, sep_loop_eq_repeat, hl] at h
  · intro h
    simp [sep_by, h]
  · intro v r hp
    obtain ⟨vs, rest, hl, _, _⟩ :=
      repeat_loop_ok _ hstep_nd hstep_c (r.length + 1) r (by omega)
    exact ⟨vs, rest, by simp [sep_by, hp, sep_loop_eq_repeat, hl]⟩
  · intro vs rest h
    cases hp : p input with
    | err => simp [sep_by, hp] at h
    | div => exact absurd hp (hdiv input)
    | ok v r =>
      obtain ⟨vs2, rest2, hl, herr, _⟩ :=
        repeat_loop_ok _ hstep_nd hstep_c (r.length + 1) r (by omega)
      have hsb : sep_by p sep input = PResult.ok (v :: vs2) rest2 := by
        simp [sep_by, hp, sep_loop_eq_repeat, hl]
      rw [hsb] at h
      cases h
      exact ⟨by simp, herr⟩

/-- Witness for C7, at the digit item parser, a comma separator and the
input `3,5`. -/
theorem C7_sep_by_spec_witness :
    (sep_by digit_char [','] ['3', ',', '5'] = PResult.err ↔
        digit_char ['3', ',', '5'] = PResult.err) ∧
      (∀ v r, digit_char ['3', ',', '5'] = PResult.ok v r →
        ∃ vs rest, sep_by digit_char [','] ['3', ',', '5'] = PResult.ok (v :: vs) rest) ∧
      (∀ vs rest, sep_by digit_char [','] ['3', ',', '5'] = PResult.ok vs rest →
        vs ≠ [] ∧ sep_step digit_char [','] rest = PResult.err) :=
  C7_sep_by_spec digit_char [','] ['3', ',', '5'] digit_char_no_div digit_char_consumes

/-- Witness for C8, at the digit parser and the input `12a`. -/
theorem C8_repetition_spec_witness :
    (∃ vs rest, zero_or_more digit_char ['1', '2', 'a'] = PResult.ok vs rest ∧
        digit_char rest = PResult.err) ∧
      (digit_char ['1', '2', 'a'] = PResult.err →
        one_or_more digit_char ['1', '2', 'a'] = PResult.err) ∧
      (digit_char ['1', '2', 'a'] ≠ PResult.err →
        one_or_more digit_char ['1', '2', 'a'] = zero_or_more digit_char ['1', '2', 'a']) :=
  C8_repetition_spec digit_char ['1', '2', 'a'] digit_char_no_div digit_char_consumes

/-- C10: when the inner parser never panics and consumes on every success,
the three repetition combinators complete on every finite input; the
consumption requirement is essential, since an inner parser that succeeds
without consuming drives `zero_or_more` and `one_or_more` into an infinite
loop, and `sep_by` likewise diverges once the separator step can succeed
without consuming (here: an empty separator with a consume-nothing item
parser). -/
theorem C10_repetition_termination {α β : Type} (p : Parser α) (q : Parser β)
    (sep input s0 : List Char) (v : β)
    (hdiv : ∀ s, p s ≠ PResult.div)
    (hcons : ∀ s v r, p s = PResult.ok v r → r.length < s.length)
    (hq : q s0 = PResult.ok v s0) :
    (zero_or_more p input ≠ PResult.div ∧ one_or_more p input ≠ PResult.div ∧
        sep_by p sep input ≠ PResult.div) ∧
      (zero_or_more q s0 = PResult.div ∧ one_or_more q s0 = PResult.div) ∧
      sep_by (fun s => PResult.ok () s) [] [] = PResult.div := by
  refine ⟨⟨?_, ?_, ?_⟩, ⟨?_, ?_⟩, rfl⟩
  · obtain ⟨vs, rest, hl, _, _⟩ :=
      repeat_loop_ok p hdiv hcons (input.length + 1) input (by omega)
    simp [zero_or_more, hl]
  · cases hp : p input with
    | err => simp [one_or_more, hp]
    | div => exact absurd hp (hdiv input)
    | ok v2 r =>
      obtain ⟨vs, rest, hl, _, _⟩ := repeat_loop_ok p hdiv hcons (r.length + 1) r (by omega)
      simp [one_or_more, hp, hl]
  · cases hp : p input with
    | err => simp [sep_by, hp]
    | div => exact absurd hp (hdiv input)
    | ok v2 r =>
      obtain ⟨vs, rest, hl, _, _⟩ :=
        repeat_loop_ok _ (sep_step_no_div p sep hdiv) (sep_step_consumes p sep hcons)
          (r.length + 1) r (by omega)
      simp [sep_by, hp, sep_loop_eq_repeat, hl]
  · simp [zero_or_more, repeat_loop_nonconsuming_div q s0 v hq]
  · simp [one_or_more, hq, repeat_loop_nonconsuming_div q s0 v hq]

/-- Witness for C10: the digit parser terminates on `7`, while the
consume-nothing parser loops on `a`. -/
theorem C10_repetition_termination_witness :
    (zero_or_more digit_char ['7'] ≠ PResult.div ∧
        one_or_more digit_char ['7'] ≠ PResult.div ∧
        sep_by digit_char [','] ['7'] ≠ PResult.div) ∧
      (zero_or_more (fun s => PResult.ok () s) ['a'] = PResult.div ∧
        one_or_more (fun s => PResult.ok () s) ['a'] = PResult.div) ∧
      sep_by (fun s => PResult.ok () s) [] [] = PResult.div :=
  C10_repetition_termination digit_char (fun s => PResult.ok () s) [','] ['7'] ['a'] ()
    digit_char_no_div digit_char_consumes rfl

/-- A digit character is in the 48–57 code range. -/
theorem digit_toNat_bounds (c : Char) (h : c.isDigit = true) :
    48 ≤ c.toNat ∧ c.toNat ≤ 57 := by
  simp [Char.isDigit] at h
  obtain ⟨h1, h2⟩ := h
  exact ⟨h1, h2⟩

/-- A digit character is not whitespace. -/
theorem digit_not_ws (c : Char) (h : c.isDigit = true) :
    rust_is_whitespace c = false := by
  obtain ⟨h1, h2⟩ := digit_toNat_bounds c h
  simp only [rust_is_whitespace]
  simp only [Bool.or_eq_false_iff, Bool.and_eq_false_iff, decide_eq_false_iff_not]
  omega

/-- `whitespace` consumes nothing when the input does not start with a
whitespace character. -/
theorem whitespace_no_consume (s : List Char)
    (h : ∀ c, s.head? = some c → rust_is_whitespace c = false) :
    whitespace s = PResult.ok () s := by
  cases s with
  | nil => rfl
  | cons c t =>
    have hc := h c rfl
    simp [whitespace, pmap, zero_or_more, repeat_loop, ppred, any_char, hc]

/-- `match_literal` fails when the first expected character mismatches. -/
theorem match_literal_head_ne (e : Char) (es : List Char) (c : Char) (t : List Char)
    (h : (e == c) = false) : match_literal (e :: es) (c :: t) = PResult.err := by
  simp [match_literal, List.isPrefixOf, h]

/-- A one-character literal succeeds exactly on its own character. -/
theorem match_literal_single (c : Char) (t : List Char) :
    match_literal [c] (c :: t) = PResult.ok () t := by
  simp [match_literal, List.isPrefixOf]

/-- An exit step of the repetition loop with arbitrary positive fuel. -/
theorem repeat_loop_err_exit {α : Type} (p : Parser α) (f : Nat) (s : List Char)
    (h : p s = PResult.err) (hf : 0 < f) : repeat_loop p f s = PResult.ok [] s := by
  cases f with
  | zero => exact absurd hf (by omega)
  | succ g => simp [repeat_loop, h]

/-- A successful step of the repetition loop with arbitrary positive fuel. -/
theorem repeat_loop_step {α : Type} (p : Parser α) (f : Nat) (s : List Char)
    (v : α) (r : List Char) (hp : p s = PResult.ok v r) (hf : 0 < f) :
    repeat_loop p f s =
      match repeat_loop p (f - 1) r with
      | PResult.ok vs rest => PResult.ok (v :: vs) rest
      | other => other := by
  cases f with
  | zero => exact absurd hf (by omega)
  | succ g => simp [repeat_loop, hp]

/-- A run of digit characters followed by a non-digit is consumed exactly by
the digit repetition loop. -/
theorem repeat_loop_digits :
    ∀ (ds : List Char) (rest : List Char) (f : Nat),
      (∀ c ∈ ds, c.isDigit = true) →
      (∀ c, rest.head? = some c → c.isDigit = false) →
      (ds ++ rest).length < f →
      repeat_loop digit_char f (ds ++ rest) = PResult.ok ds rest := by
  intro ds
  induction ds with
  | nil =>
    intro rest f _ hrest hf
    cases f with
    | zero => exact absurd hf (Nat.not_lt_zero _)
    | succ g =>
      cases rest with
      | nil => simp [repeat_loop, digit_char, ppred, any_char]
      | cons c t =>
        have hc : c.isDigit = false := hrest c rfl
        simp [repeat_loop, digit_char, ppred, any_char, hc]
  | cons d ds ih =>
    intro rest f hds hrest hf
    cases f with
    | zero => exact absurd hf (Nat.not_lt_zero _)
    | succ g =>
      have hd : d.isDigit = true := hds d (List.mem_cons_self d ds)
      have hds2 : ∀ c ∈ ds, c.isDigit = true := fun c hc => hds c (List.mem_cons_of_mem d hc)
      have hlen : (ds ++ rest).length < g := by
        simp only [List.cons_append, List.length_cons] at hf
        simpa using Nat.lt_of_succ_lt_succ hf
      have hstep : digit_char (d :: (ds ++ rest)) = PResult.ok d (ds ++ rest) := by
        simp [digit_char, ppred, any_char, hd]
      simp [repeat_loop, hstep, ih rest g hds2 hrest hlen]

/-- `parse_int` consumes a maximal non-empty digit run and returns its
value, provided the value fits a usize. -/
theorem parse_int_digits (ds rest : List Char)
    (hne : ds ≠ [])
    (hds : ∀ c ∈ ds, c.isDigit = true)
    (hrest : ∀ c, rest.head? = some c → c.isDigit = false)
    (hval : val_of_digits ds < 2 ^ 64) :
    parse_int (ds ++ rest) = PResult.ok (val_of_digits ds) rest := by
  cases ds with
  | nil => exact absurd rfl hne
  | cons d dt =>
    have hd : d.isDigit = true := hds d (List.mem_cons_self d dt)
    have hdt : ∀ c ∈ dt, c.isDigit = true := fun c hc => hds c (List.mem_cons_of_mem d hc)
    have hstep : digit_char (d :: (dt ++ rest)) = PResult.ok d (dt ++ rest) := by
      simp [digit_char, ppred, any_char, hd]
    have hloop : repeat_loop digit_char ((dt ++ rest).length + 1) (dt ++ rest)
        = PResult.ok dt rest :=
      repeat_loop_digits dt rest ((dt ++ rest).length + 1) hdt hrest (by omega)
    simp only [parse_int, one_or_more, List.cons_append, hstep, hloop, hval, if_pos]

/-- The separator step of `sep_by parse_int ","` fails at a closing
brace. -/
theorem sep_step_int_err_at_rbrace (r : List Char) :
    sep_step parse_int [','] (Char.ofNat 125 :: r) = PResult.err := by
  have hws : whitespace (Char.ofNat 125 :: r) = PResult.ok () (Char.ofNat 125 :: r) := by
    refine whitespace_no_consume _ ?_
    intro c hc
    cases hc
    decide
  have hml : match_literal [','] (Char.ofNat 125 :: r) = PResult.err :=
    match_literal_head_ne ',' [] _ r (by decide)
  simp [sep_step, whitespace_surrounded_sep, pmap, pair, hws, hml]

/-- The separator step of `sep_by parse_int ","` consumes a comma and a
following digit run. -/
theorem sep_step_int_comma (b r : List Char)
    (hb : b ≠ []) (hdb : ∀ c ∈ b, c.isDigit = true)
    (hvb : val_of_digits b < 2 ^ 64) :
    sep_step parse_int [','] (',' :: (b ++ (Char.ofNat 125 :: r)))
      = PResult.ok (val_of_digits b) (Char.ofNat 125 :: r) := by
  have hws1 : whitespace (',' :: (b ++ (Char.ofNat 125 :: r)))
      = PResult.ok () (',' :: (b ++ (Char.ofNat 125 :: r))) := by
    refine whitespace_no_consume _ ?_
    intro c hc
    cases hc
    decide
  have hml : match_literal [','] (',' :: (b ++ (Char.ofNat 125 :: r)))
      = PResult.ok () (b ++ (Char.ofNat 125 :: r)) := match_literal_single ',' _
  have hws2 : whitespace (b ++ (Char.ofNat 125 :: r))
      = PResult.ok () (b ++ (Char.ofNat 125 :: r)) := by
    refine whitespace_no_consume _ ?_
    intro c hc
    cases b with
    | nil => exact absurd rfl hb
    | cons hb2 tb =>
      simp only [List.cons_append, List.head?_cons, Option.some.injEq] at hc
      subst hc
      exact digit_not_ws _ (hdb _ (List.mem_cons_self _ _))
  have hpi : parse_int (b ++ (Char.ofNat 125 :: r))
      = PResult.ok (val_of_digits b) (Char.ofNat 125 :: r) := by
    refine parse_int_digits b _ hb hdb ?_ hvb
    intro c hc
    cases hc
    decide
  simp [sep_step, whitespace_surrounded_sep, pmap, pair, hws1, hml, hws2, hpi]

/-- `sep_by parse_int ","` on a single digit run before a closing brace. -/
theorem sep_by_int_single (a r : List Char)
    (ha : a ≠ []) (hda : ∀ c ∈ a, c.isDigit = true)
    (hva : val_of_digits a < 2 ^ 64) :
    sep_by parse_int [','] (a ++ (Char.ofNat 125 :: r))
      = PResult.ok [val_of_digits a] (Char.ofNat 125 :: r) := by
  have hpi : parse_int (a ++ (Char.ofNat 125 :: r))
      = PResult.ok (val_of_digits a) (Char.ofNat 125 :: r) := by
    refine parse_int_digits a _ ha hda ?_ hva
    intro c hc
    cases hc
    decide
  simp only [sep_by, hpi]
  rw [sep_loop_eq_repeat,
    repeat_loop_err_exit _ _ _ (sep_step_int_err_at_rbrace r) (by omega)]

/-- `sep_by parse_int ","` on two digit runs split by a comma. -/
theorem sep_by_int_two (a b r : List Char)
    (ha : a ≠ []) (hda : ∀ c ∈ a, c.isDigit = true) (hva : val_of_digits a < 2 ^ 64)
    (hb : b ≠ []) (hdb : ∀ c ∈ b, c.isDigit = true) (hvb : val_of_digits b < 2 ^ 64) :
    sep_by parse_int [','] (a ++ (',' :: (b ++ (Char.ofNat 125 :: r))))
      = PResult.ok [val_of_digits a, val_of_digits b] (Char.ofNat 125 :: r) := by
  have hpi : parse_int (a ++ (',' :: (b ++ (Char.ofNat 125 :: r))))
      = PResult.ok (val_of_digits a) (',' :: (b ++ (Char.ofNat 125 :: r))) := by
    refine parse_int_digits a _ ha hda ?_ hva
    intro c hc
    cases hc
    decide
  simp only [sep_by, hpi]
  rw [sep_loop_eq_repeat,
    repeat_loop_step _ _ _ _ _ (sep_step_int_comma b r hb hdb hvb) (by omega),
    repeat_loop_err_exit _ _ _ (sep_step_int_err_at_rbrace r) (by simp)]

/-- `sep_by parse_int ","` on three digit runs split by commas. -/
theorem sep_by_int_three (a b c3 r : List Char)
    (ha : a ≠ []) (hda : ∀ c ∈ a, c.isDigit = true) (hva : val_of_digits a < 2 ^ 64)
    (hb : b ≠ []) (hdb : ∀ c ∈ b, c.isDigit = true) (hvb : val_of_digits b < 2 ^ 64)
    (hc : c3 ≠ []) (hdc : ∀ c ∈ c3, c.isDigit = true) (hvc : val_of_digits c3 < 2 ^ 64) :
    sep_by parse_int [','] (a ++ (',' :: (b ++ (',' :: (c3 ++ (Char.ofNat 125 :: r))))))
      = PResult.ok [val_of_digits a, val_of_digits b, val_of_digits c3]
          (Char.ofNat 125 :: r) := by
  have hpi : parse_int (a ++ (',' :: (b ++ (',' :: (c3 ++ (Char.ofNat 125 :: r))))))
      = PResult.ok (val_of_digits a)
          (',' :: (b ++ (',' :: (c3 ++ (Char.ofNat 125 :: r))))) := by
    refine parse_int_digits a _ ha hda ?_ hva
    intro c hc2
    cases hc2
    decide
  have hstep1 : sep_step parse_int [','] (',' :: (b ++ (',' :: (c3 ++ (Char.ofNat 125 :: r)))))
      = PResult.ok (val_of_digits b) (',' :: (c3 ++ (Char.ofNat 125 :: r))) := by
    have hws1 : whitespace (',' :: (b ++ (',' :: (c3 ++ (Char.ofNat 125 :: r)))))
        = PResult.ok () (',' :: (b ++ (',' :: (c3 ++ (Char.ofNat 125 :: r))))) := by
      refine whitespace_no_consume _ ?_
      intro c hc2
      cases hc2
      decide
    have hml : match_literal [','] (',' :: (b ++ (',' :: (c3 ++ (Char.ofNat 125 :: r)))))
        = PResult.ok () (b ++ (',' :: (c3 ++ (Char.ofNat 125 :: r)))) :=
      match_literal_single ',' _
    have hws2 : whitespace (b ++ (',' :: (c3 ++ (Char.ofNat 125 :: r))))
        = PResult.ok () (b ++ (',' :: (c3 ++ (Char.ofNat 125 :: r)))) := by
      refine whitespace_no_consume _ ?_
      intro c hc2
      cases b with
      | nil => exact absurd rfl hb
      | cons hb2 tb =>
        simp only [List.cons_append, List.head?_cons, Option.some.injEq] at hc2
        subst hc2
        exact digit_not_ws _ (hdb _ (List.mem_cons_self _ _))
    have hpib : parse_int (b ++ (',' :: (c3 ++ (Char.ofNat 125 :: r))))
        = PResult.ok (val_of_digits b) (',' :: (c3 ++ (Char.ofNat 125 :: r))) := by
      refine parse_int_digits b _ hb hdb ?_ hvb
      intro c hc2
      cases hc2
      decide
    simp [sep_step, whitespace_surrounded_sep, pmap, pair, hws1, hml, hws2, hpib]
  simp only [sep_by, hpi]
  rw [sep_loop_eq_repeat,
    repeat_loop_step _ _ _ _ _ hstep1 (by omega),
    repeat_loop_step _ _ _ _ _ (sep_step_int_comma c3 r hc hdc hvc) (by simp),
    repeat_loop_err_exit _ _ _ (sep_step_int_err_at_rbrace r) (by simp)]

/-- The brace branch of `parse_quantifier`: with every shorter alternative
ruled out by the leading `{`, the outcome is decided by the integer list the
inner `sep_by` returns — one integer gives `AtLeast`, two or more give
`Between` over the first two. -/
theorem parse_quantifier_brace (inner : List Char) (vs : List Nat) (rest : List Char)
    (h : sep_by parse_int [','] inner = PResult.ok vs (Char.ofNat 125 :: rest)) :
    parse_quantifier (Char.ofNat 123 :: inner) =
      match vs with
      | [v] => PResult.ok (Quantifier.AtLeast v) rest
      | v1 :: v2 :: _ => PResult.ok (Quantifier.Between v1 v2) rest
      | [] => PResult.div := by
  have l1 : match_literal ['+', '?'] (Char.ofNat 123 :: inner) = PResult.err :=
    match_literal_head_ne _ _ _ _ (by decide)
  have l2 : match_literal ['*', '?'] (Char.ofNat 123 :: inner) = PResult.err :=
    match_literal_head_ne _ _ _ _ (by decide)
  have l3 : match_literal ['?', '?'] (Char.ofNat 123 :: inner) = PResult.err :=
    match_literal_head_ne _ _ _ _ (by decide)
  have l4 : match_literal ['+'] (Char.ofNat 123 :: inner) = PResult.err :=
    match_literal_head_ne _ _ _ _ (by decide)
  have l5 : match_literal ['*'] (Char.ofNat 123 :: inner) = PResult.err :=
    match_literal_head_ne _ _ _ _ (by decide)
  have l6 : match_literal ['?'] (Char.ofNat 123 :: inner) = PResult.err :=
    match_literal_head_ne _ _ _ _ (by decide)
  have hlb : match_literal [Char.ofNat 123] (Char.ofNat 123 :: inner)
      = PResult.ok () inner := match_literal_single _ _
  have hrb : match_literal [Char.ofNat 125] (Char.ofNat 125 :: rest)
      = PResult.ok () rest := match_literal_single _ _
  simp only [parse_quantifier, por, pmap, pleft, pright, pair,
    l1, l2, l3, l4, l5, l6, hlb, h, hrb]
  cases vs with
  | nil => rfl
  | cons v1 t => cases t <;> rfl

/-- C6 (amended): a brace suffix with one integer parses to `AtLeast m` and
one with two integers parses to `Between m n`, but a brace form with three
integers is not rejected: it also parses, to `Between` of the first two
integers, the third being silently discarded. -/
theorem C6_brace_quantifier_forms (a b c3 r : List Char)
    (ha : a ≠ []) (hda : ∀ c ∈ a, c.isDigit = true) (hva : val_of_digits a < 2 ^ 64)
    (hb : b ≠ []) (hdb : ∀ c ∈ b, c.isDigit = true) (hvb : val_of_digits b < 2 ^ 64)
    (hc : c3 ≠ []) (hdc : ∀ c ∈ c3, c.isDigit = true) (hvc : val_of_digits c3 < 2 ^ 64) :
    parse_quantifier (Char.ofNat 123 :: (a ++ (Char.ofNat 125 :: r)))
        = PResult.ok (Quantifier.AtLeast (val_of_digits a)) r ∧
      parse_quantifier (Char.ofNat 123 :: (a ++ (',' :: (b ++ (Char.ofNat 125 :: r)))))
        = PResult.ok (Quantifier.Between (val_of_digits a) (val_of_digits b)) r ∧
      parse_quantifier
          (Char.ofNat 123 :: (a ++ (',' :: (b ++ (',' :: (c3 ++ (Char.ofNat 125 :: r)))))))
        = PResult.ok (Quantifier.Between (val_of_digits a) (val_of_digits b)) r := by
  refine ⟨?_, ?_, ?_⟩
  · rw [parse_quantifier_brace _ [val_of_digits a] r (sep_by_int_single a r ha hda hva)]
  · rw [parse_quantifier_brace _ [val_of_digits a, val_of_digits b] r
      (sep_by_int_two a b r ha hda hva hb hdb hvb)]
  · rw [parse_quantifier_brace _ [val_of_digits a, val_of_digits b, val_of_digits c3] r
      (sep_by_int_three a b c3 r ha hda hva hb hdb hvb hc hdc hvc)]

/-- Witness for C6: the quantifiers `{3}`, `{3,5}`, `{3,5,7}` at concrete
digit strings. -/
theorem C6_brace_quantifier_forms_witness :
    parse_quantifier (Char.ofNat 123 :: (['3'] ++ (Char.ofNat 125 :: [])))
        = PResult.ok (Quantifier.AtLeast (val_of_digits ['3'])) [] ∧
      parse_quantifier
          (Char.ofNat 123 :: (['3'] ++ (',' :: (['5'] ++ (Char.ofNat 125 :: [])))))
        = PResult.ok
            (Quantifier.Between (val_of_digits ['3']) (val_of_digits ['5'])) [] ∧
      parse_quantifier
          (Char.ofNat 123 ::
            (['3'] ++ (',' :: (['5'] ++ (',' :: (['7'] ++ (Char.ofNat 125 :: [])))))))
        = PResult.ok
            (Quantifier.Between (val_of_digits ['3']) (val_of_digits ['5'])) [] :=
  C6_brace_quantifier_forms ['3'] ['5'] ['7'] []
    (by decide) (by decide) (by decide)
    (by decide) (by decide) (by decide)
    (by decide) (by decide) (by decide)

end Regexrs
